import Mathlib

/-!
Verification of the grid-cutting / shape-matching engine of `shape-slicer`
(`src/utils/geometry.ts`), as a shallow embedding in Lean 4.

JS numbers are modelled as `Int` (all engine values are integer grid
coordinates); JS strings as `List Char`; the JS `Set<string>` containers keyed
by `"x,y"` / `"x,y,v"` template strings are modelled by list membership of the
structured values, which is faithful because the key functions are injective
on integer cells/edges.  `NaN` (producible only by `parseInt` failure) is
modelled as `none : Option Int`.
-/

/-- `Coordinate` from `src/types.ts`: an integer pair. -/
structure Coordinate where
  x : Int
  y : Int
deriving DecidableEq

/-- `Cell` from `src/types.ts`: a coordinate interpreted as a unit grid square. -/
abbrev Cell := Coordinate

/-- `GridEdge` from `src/types.ts`: a unit boundary segment, anchored at the
cell to its left (vertical) or above it (horizontal). -/
structure GridEdge where
  x : Int
  y : Int
  vertical : Bool
deriving DecidableEq

/-- `Piece` from `src/types.ts`.  `rotation` is in degrees (0/90/180/270);
the code only ever reads `(rotation / 90) % 4`. -/
structure Piece where
  id : String
  cells : List Cell
  position : Coordinate
  rotation : Nat
  isFlipped : Bool
  color : String

/-- `rotatePoint` (geometry.ts line 7): rotate 90 degrees clockwise about the origin. -/
def rotatePoint (p : Coordinate) : Coordinate := ⟨-p.y, p.x⟩

/-- `flipPoint` (geometry.ts line 10): mirror horizontally about x = 0. -/
def flipPoint (p : Coordinate) : Coordinate := ⟨-p.x, p.y⟩

/-- The `for` loop of `getAbsoluteCells`: apply `rotatePoint` a given number of times. -/
def applyRotations (c : Coordinate) : Nat → Coordinate
  | 0 => c
  | k + 1 => rotatePoint (applyRotations c k)

/-- `getAbsoluteCells` (geometry.ts lines 13-34): flip (if flagged), then rotate
`(rotation / 90) % 4` times, then translate by `position`. -/
def getAbsoluteCells (piece : Piece) : List Cell :=
  piece.cells.map fun cell =>
    let c1 := if piece.isFlipped then flipPoint cell else cell
    let c2 := applyRotations c1 ((piece.rotation / 90) % 4)
    ⟨c2.x + piece.position.x, c2.y + piece.position.y⟩

/-- `normalizePiece` (geometry.ts lines 37-47): translate a cell list so its
minimum x and y become 0, returning the removed offset.  `Math.min(...)` over a
non-empty list is modelled by a `min` fold over head and tail. -/
def normalizePiece (cells : List Cell) : List Cell × Coordinate :=
  match cells with
  | [] => ([], ⟨0, 0⟩)
  | c :: cs =>
    let minX := cs.foldl (fun m d => min m d.x) c.x
    let minY := cs.foldl (fun m d => min m d.y) c.y
    ((c :: cs).map fun d => ⟨d.x - minX, d.y - minY⟩, ⟨minX, minY⟩)

/-- `checkSolution` (geometry.ts lines 50-76).  The `Set<string>` of `"x,y"`
keys is modelled by list membership (the key map is injective on cells). -/
def checkSolution (pieces : List Piece) (targetCells : List Cell) : Bool :=
  if pieces.length ≠ 2 then false
  else if pieces.any (fun p => p.cells.length < 3) then false
  else
    let allAbsCells := pieces.flatMap getAbsoluteCells
    if allAbsCells.length = 0 then false
    else
      let currentShape := (normalizePiece allAbsCells).1
      let targetShape := (normalizePiece targetCells).1
      if currentShape.length ≠ targetShape.length then false
      else targetShape.all fun c => decide (c ∈ currentShape)

/-- `pointsToEdges` (geometry.ts lines 79-104): one candidate edge per
consecutive pair of path points, skipping non-axis-aligned pairs. -/
def pointsToEdges : List Coordinate → List GridEdge
  | p1 :: p2 :: rest =>
    (if p1.x = p2.x then [⟨p1.x - 1, min p1.y p2.y, true⟩]
     else if p1.y = p2.y then [⟨min p1.x p2.x, p1.y - 1, false⟩]
     else []) ++ pointsToEdges (p2 :: rest)
  | _ => []

/-- `interpolatePoints` (geometry.ts lines 107-131).  The two `for` loops
(`currX += stepX; push(...)` run `|dx|` times, then the y loop) are unrolled to
their closed forms: the i-th pushed x-point is `(p1.x + stepX*(i+1), p1.y)`. -/
def interpolatePoints (p1 p2 : Coordinate) : List Coordinate :=
  let dx := p2.x - p1.x
  let dy := p2.y - p1.y
  if dx = 0 ∧ dy = 0 then []
  else
    let stepX : Int := if dx > 0 then 1 else -1
    let stepY : Int := if dy > 0 then 1 else -1
    ((List.range dx.natAbs).map fun i => (⟨p1.x + stepX * ((i : Int) + 1), p1.y⟩ : Coordinate)) ++
    ((List.range dy.natAbs).map fun i => (⟨p2.x, p1.y + stepY * ((i : Int) + 1)⟩ : Coordinate))

/-- Decimal digit character, as produced by JS number-to-string conversion. -/
def digitChar : Nat → Char
  | 0 => '0'
  | 1 => '1'
  | 2 => '2'
  | 3 => '3'
  | 4 => '4'
  | 5 => '5'
  | 6 => '6'
  | 7 => '7'
  | 8 => '8'
  | _ => '9'

/-- Decimal digit string of a natural number (most significant digit first),
as produced by JS `Number.prototype.toString` for non-negative integers. -/
def natToDigits (n : Nat) : List Char :=
  if n < 10 then [digitChar n]
  else natToDigits (n / 10) ++ [digitChar (n % 10)]
termination_by n
decreasing_by omega

/-- JS string conversion of an integer (`-` sign then decimal digits), used by
the template literal in `getEdgeAsKey`. -/
def intToChars (n : Int) : List Char :=
  if n < 0 then '-' :: natToDigits n.natAbs else natToDigits n.toNat

/-- `getEdgeAsKey` (geometry.ts line 133): the template literal
producing the canonical key string of an edge. -/
def getEdgeAsKey (e : GridEdge) : List Char :=
  intToChars e.x ++ [','] ++ intToChars e.y ++ [','] ++ (if e.vertical then ['v'] else ['h'])

/-- `String.prototype.split(',')`: split a character list at every comma. -/
def splitComma : List Char → List (List Char)
  | [] => [[]]
  | c :: rest =>
    if c = ',' then [] :: splitComma rest
    else
      match splitComma rest with
      | [] => [[c]]
      | p :: ps => (c :: p) :: ps

/-- Accumulator loop of JS `parseInt`: consume leading decimal digits,
stopping at the first non-digit. -/
def parseNatAux : List Char → Nat → Nat
  | [], acc => acc
  | c :: rest, acc => if c.isDigit then parseNatAux rest (acc * 10 + (c.toNat - 48)) else acc

/-- Leading-digit parse: `some n` for a digit-initial string, `none` (JS `NaN`)
otherwise. -/
def parseNatLead : List Char → Option Nat
  | [] => none
  | c :: rest => if c.isDigit then some (parseNatAux rest (c.toNat - 48)) else none

/-- JS `parseInt(s)` on the strings this codebase feeds it (optional sign,
then decimal digits, trailing junk ignored); `none` models `NaN`. -/
def parseIntChars (s : List Char) : Option Int :=
  match s with
  | '-' :: rest => (parseNatLead rest).map fun n => -(n : Int)
  | '+' :: rest => (parseNatLead rest).map fun n => (n : Int)
  | _ => (parseNatLead s).map fun n => (n : Int)

/-- Result of `parseEdgeKey`: a JS object whose `x`/`y` may be `NaN`
(modelled `none`). -/
structure ParsedEdge where
  x : Option Int
  y : Option Int
  vertical : Bool
deriving DecidableEq

/-- The embedding of a well-formed `GridEdge` into `parseEdgeKey`'s result type. -/
def GridEdge.toParsed (e : GridEdge) : ParsedEdge := ⟨some e.x, some e.y, e.vertical⟩

/-- `parseEdgeKey` (geometry.ts lines 135-138): destructure
`k.split(',')` into its first three components (`undefined` when missing, and
`parseInt(undefined)` is `NaN`, while `undefined === 'v'` is `false`). -/
def parseEdgeKey (k : List Char) : ParsedEdge :=
  let parts := splitComma k
  { x := (parts.get? 0).bind parseIntChars
    y := (parts.get? 1).bind parseIntChars
    vertical := parts.get? 2 = some ['v'] }

/-- `getNeighbors` (geometry.ts lines 154-174): unblocked occupied
4-neighbors of a cell.  Membership in the `Set<string>` lookups (`cellSet`,
`cuts`) is modelled by list membership of the structured values. -/
def getNeighbors (S : List Cell) (cuts : List GridEdge) (c : Cell) : List Cell :=
  (if (⟨c.x + 1, c.y⟩ : Cell) ∈ S ∧ (GridEdge.mk c.x c.y true) ∉ cuts
    then [⟨c.x + 1, c.y⟩] else []) ++
  (if (⟨c.x - 1, c.y⟩ : Cell) ∈ S ∧ (GridEdge.mk (c.x - 1) c.y true) ∉ cuts
    then [⟨c.x - 1, c.y⟩] else []) ++
  (if (⟨c.x, c.y + 1⟩ : Cell) ∈ S ∧ (GridEdge.mk c.x c.y false) ∉ cuts
    then [⟨c.x, c.y + 1⟩] else []) ++
  (if (⟨c.x, c.y - 1⟩ : Cell) ∈ S ∧ (GridEdge.mk c.x (c.y - 1) false) ∉ cuts
    then [⟨c.x, c.y - 1⟩] else [])

/-- The `while (queue.length > 0)` flood fill of `performCut` (geometry.ts
lines 186-197), returning `(component, visited)`.  The source pushes each
not-yet-visited neighbor onto `queue`/`visited`/`component` one at a time;
since the four neighbors of a cell are pairwise distinct, that is the single
`filter`-and-append below. -/
def bfsLoop (S : List Cell) (cuts : List GridEdge) :
    List Cell → List Cell → List Cell → List Cell × List Cell
  | [], visited, component => (component, visited)
  | curr :: rest, visited, component =>
    let neis := (getNeighbors S cuts curr).filter fun n => n ∉ visited
    bfsLoop S cuts (rest ++ neis) (visited ++ neis) (component ++ neis)
termination_by queue visited component => ((S.toFinset \ visited.toFinset).card, queue.length)
decreasing_by
  by_cases hne : (getNeighbors S cuts curr).filter (fun n => n ∉ visited) = []
  · rw [hne]
    simp only [List.append_nil]
    exact Prod.Lex.right _ (by simp)
  · obtain ⟨n, hn⟩ := List.exists_mem_of_ne_nil _ hne
    have hmem := List.mem_filter.mp hn
    have hnS : n ∈ S := by
      have hx := hmem.1
      unfold getNeighbors at hx
      simp only [List.mem_append] at hx
      rcases hx with ((hx | hx) | hx) | hx <;>
        · split at hx <;> simp_all
    have hnv : n ∉ visited := by
      have := hmem.2
      simpa using this
    apply Prod.Lex.left
    apply Finset.card_lt_card
    constructor
    · intro z hz
      simp only [Finset.mem_sdiff, List.mem_toFinset, List.mem_append] at hz ⊢
      exact ⟨hz.1, fun h => hz.2 (Or.inl h)⟩
    · intro hcon
      have h1 : n ∈ S.toFinset \ visited.toFinset := by
        simp only [Finset.mem_sdiff, List.mem_toFinset]
        exact ⟨hnS, hnv⟩
      have h2 := hcon h1
      simp only [Finset.mem_sdiff, List.mem_toFinset, List.mem_append] at h2
      exact h2.2 (Or.inr hn)

/-- The `for (const startNode of absCells)` loop of `performCut` (geometry.ts
lines 176-199): start a flood fill at each not-yet-visited cell, collecting
components in discovery order. -/
def cutLoop (S : List Cell) (cuts : List GridEdge) :
    List Cell → List Cell → List (List Cell)
  | [], _ => []
  | startNode :: rest, visited =>
    if startNode ∈ visited then cutLoop S cuts rest visited
    else
      let res := bfsLoop S cuts [startNode] (visited ++ [startNode]) [startNode]
      res.1 :: cutLoop S cuts rest res.2

/-- The `newPieces.map((comp, idx) => ...)` step of `performCut` (geometry.ts
lines 202-212): normalize each component into a fresh piece.  `Date.now()` is
modelled by the explicit `now` argument (the spec requires id generation to be
injectable; no claim concerns ids). -/
def buildPieces (piece : Piece) (now : Nat) : List (List Cell) → Nat → List Piece
  | [], _ => []
  | comp :: rest, idx =>
    let n := normalizePiece comp
    { id := piece.id ++ "-" ++ toString now ++ "-" ++ toString idx
      cells := n.1
      position := n.2
      rotation := 0
      isFlipped := false
      color := piece.color } :: buildPieces piece now rest (idx + 1)

/-- `performCut` (geometry.ts lines 141-213): flood-fill the absolute cells
into components separated by the cut edges, then rebuild pieces. -/
def performCut (now : Nat) (piece : Piece) (cutEdges : List GridEdge) : List Piece :=
  let absCells := getAbsoluteCells piece
  buildPieces piece now (cutLoop absCells cutEdges absCells []) 0

/-- 4-directional adjacency of two grid cells. -/
def adjacent (a b : Cell) : Prop :=
  (a.x - b.x).natAbs + (a.y - b.y).natAbs = 1

instance (a b : Cell) : Decidable (adjacent a b) := by
  unfold adjacent; infer_instance

/-- Connectivity between two cells within a cell list: a chain of 4-adjacent
steps staying inside the list. -/
def connectedIn (l : List Cell) (a b : Cell) : Prop :=
  Relation.ReflTransGen (fun u v => u ∈ l ∧ v ∈ l ∧ adjacent u v) a b

/-- A cell list forms a single connected component under 4-adjacency. -/
def isConnected (l : List Cell) : Prop :=
  ∀ a ∈ l, ∀ b ∈ l, connectedIn l a b

/-- The cut-edge set does not separate any pair of adjacent occupied cells:
every occupied 4-neighbor of an occupied cell stays an unblocked neighbor. -/
def noSeparation (S : List Cell) (cuts : List GridEdge) : Prop :=
  ∀ a ∈ S, ∀ b ∈ S, adjacent a b → b ∈ getNeighbors S cuts a

/-- Modelled from the spec (section 4.3): per-pair edge of `toEdges` — a
vertical stroke pair gives `(p1.x - 1, min y, vertical)`, a horizontal pair
gives `(min x, p1.y - 1, horizontal)`, a diagonal pair gives nothing. -/
def specPairEdge (p1 p2 : Coordinate) : List GridEdge :=
  if p1.x = p2.x then [⟨p1.x - 1, min p1.y p2.y, true⟩]
  else if p1.y = p2.y then [⟨min p1.x p2.x, p1.y - 1, false⟩]
  else []

/-- Modelled from the spec (section 4.3): the Manhattan path from `p1` to `p2`,
all x unit steps first (sign of `p2.x - p1.x`, y held at `p1.y`), then all y
unit steps (sign of `p2.y - p1.y`, x held at `p2.x`), excluding the start and
including the end; empty when `p1 = p2`. -/
def specManhattanPath (p1 p2 : Coordinate) : List Coordinate :=
  if p1 = p2 then []
  else
    ((List.range (p2.x - p1.x).natAbs).map fun i =>
      (⟨p1.x + (p2.x - p1.x).sign * ((i : Int) + 1), p1.y⟩ : Coordinate)) ++
    ((List.range (p2.y - p1.y).natAbs).map fun i =>
      (⟨p2.x, p1.y + (p2.y - p1.y).sign * ((i : Int) + 1)⟩ : Coordinate))

/-! ## Helper lemmas -/

theorem sign_eq_step (d : Int) (hd : d ≠ 0) : d.sign = if d > 0 then 1 else -1 := by
  rcases lt_trichotomy d 0 with h | h | h
  · rw [if_neg (by omega)]
    exact Int.sign_eq_neg_one_of_neg h
  · exact absurd h hd
  · rw [if_pos h]
    exact Int.sign_eq_one_of_pos h

theorem pointsToEdges_eq_zip : ∀ points : List Coordinate,
    pointsToEdges points = (points.zip points.tail).flatMap fun pr => specPairEdge pr.1 pr.2
  | [] => by simp [pointsToEdges]
  | [_] => by simp [pointsToEdges]
  | p1 :: p2 :: rest => by
    have ih := pointsToEdges_eq_zip (p2 :: rest)
    simp only [pointsToEdges, specPairEdge, List.tail_cons, List.zip_cons_cons,
      List.flatMap_cons, ih]

theorem interpolatePoints_eq_spec (p1 p2 : Coordinate) :
    interpolatePoints p1 p2 = specManhattanPath p1 p2 := by
  obtain ⟨x1, y1⟩ := p1
  obtain ⟨x2, y2⟩ := p2
  unfold interpolatePoints specManhattanPath
  by_cases hx : x2 - x1 = 0 <;> by_cases hy : y2 - y1 = 0
  · have : (⟨x1, y1⟩ : Coordinate) = ⟨x2, y2⟩ := by
      simp only [Coordinate.mk.injEq]; omega
    simp [hx, hy, this]
  · have hne : (⟨x1, y1⟩ : Coordinate) ≠ ⟨x2, y2⟩ := by
      simp only [ne_eq, Coordinate.mk.injEq, not_and]; omega
    simp only [hx, hy, and_false, if_false, if_neg hne, sign_eq_step _ hy]
    simp [hx]
  · have hne : (⟨x1, y1⟩ : Coordinate) ≠ ⟨x2, y2⟩ := by
      simp only [ne_eq, Coordinate.mk.injEq, not_and]
      intro h; omega
    simp only [hx, hy, false_and, if_false, if_neg hne, sign_eq_step _ hx]
    simp [hy]
  · have hne : (⟨x1, y1⟩ : Coordinate) ≠ ⟨x2, y2⟩ := by
      simp only [ne_eq, Coordinate.mk.injEq, not_and]
      intro h; omega
    simp only [hx, hy, false_and, if_false, if_neg hne, sign_eq_step _ hx,
      sign_eq_step _ hy]

/-! ## Claim theorems: solution gates and the edge codec paths -/

/-- C6: `checkSolution` returns false whenever there are not exactly two
pieces or some piece has fewer than three cells, regardless of geometry. -/
theorem checkSolution_gate_false (pieces : List Piece) (targetCells : List Cell)
    (h : pieces.length ≠ 2 ∨ ∃ p ∈ pieces, p.cells.length < 3) :
    checkSolution pieces targetCells = false := by
  unfold checkSolution
  rcases h with h | ⟨p, hp, hlen⟩
  · simp [h]
  · by_cases h2 : pieces.length = 2
    · have hany : pieces.any (fun p => p.cells.length < 3) = true := by
        simp only [List.any_eq_true, decide_eq_true_eq]
        exact ⟨p, hp, hlen⟩
      simp [h2, hany]
    · simp [h2]

/-- C6 witness: the empty piece list always fails the gate. -/
theorem checkSolution_gate_false_witness : checkSolution [] [] = false :=
  checkSolution_gate_false [] [] (Or.inl (by decide))

/-- C7: `pointsToEdges` emits, per consecutive pair, exactly the edge the spec
describes (vertical pairs give `(p1.x-1, min y, v)`, horizontal pairs give
`(min x, p1.y-1, h)`, diagonal pairs give nothing), and on the concrete path
`[(2,2),(2,3)]` it yields `[{x:1, y:2, vertical:true}]`. -/
theorem pointsToEdges_pairwise_spec :
    (∀ points : List Coordinate,
      pointsToEdges points = (points.zip points.tail).flatMap fun pr => specPairEdge pr.1 pr.2) ∧
    pointsToEdges [⟨2, 2⟩, ⟨2, 3⟩] = [⟨1, 2, true⟩] :=
  ⟨pointsToEdges_eq_zip, by decide⟩

/-- C8: `interpolatePoints` is the x-then-y Manhattan path described by the
spec (excluding the start, including the end, empty on equal endpoints), and
on `(2,2) → (5,5)` yields `[(3,2),(4,2),(5,2),(5,3),(5,4),(5,5)]`. -/
theorem interpolatePoints_manhattan_spec :
    (∀ p1 p2 : Coordinate, interpolatePoints p1 p2 = specManhattanPath p1 p2) ∧
    interpolatePoints ⟨2, 2⟩ ⟨5, 5⟩ =
      [⟨3, 2⟩, ⟨4, 2⟩, ⟨5, 2⟩, ⟨5, 3⟩, ⟨5, 4⟩, ⟨5, 5⟩] :=
  ⟨interpolatePoints_eq_spec, by decide⟩

/-! ## Edge codec lemmas -/

theorem digitChar_large (n : Nat) : digitChar (n + 9) = '9' := rfl

theorem digitChar_isDigit (d : Nat) : (digitChar d).isDigit = true := by
  match d with
  | 0 | 1 | 2 | 3 | 4 | 5 | 6 | 7 | 8 => decide
  | n + 9 => rw [digitChar_large]; decide

theorem digitChar_ne_comma (d : Nat) : digitChar d ≠ ',' := by
  match d with
  | 0 | 1 | 2 | 3 | 4 | 5 | 6 | 7 | 8 => decide
  | n + 9 => rw [digitChar_large]; decide

theorem digitChar_ne_dash (d : Nat) : digitChar d ≠ '-' := by
  match d with
  | 0 | 1 | 2 | 3 | 4 | 5 | 6 | 7 | 8 => decide
  | n + 9 => rw [digitChar_large]; decide

theorem digitChar_ne_plus (d : Nat) : digitChar d ≠ '+' := by
  match d with
  | 0 | 1 | 2 | 3 | 4 | 5 | 6 | 7 | 8 => decide
  | n + 9 => rw [digitChar_large]; decide

theorem digitChar_val (d : Nat) (h : d < 10) : (digitChar d).toNat - 48 = d := by
  match d with
  | 0 | 1 | 2 | 3 | 4 | 5 | 6 | 7 | 8 => decide
  | n + 9 =>
    have hn : n = 0 := by omega
    subst hn
    decide

theorem natToDigits_shape (n : Nat) : ∀ c ∈ natToDigits n, ∃ d, c = digitChar d := by
  induction n using natToDigits.induct with
  | case1 n h =>
    rw [natToDigits, if_pos h]
    intro c hc
    simp only [List.mem_singleton] at hc
    exact ⟨n, hc⟩
  | case2 n h ih =>
    rw [natToDigits, if_neg h]
    intro c hc
    rcases List.mem_append.mp hc with hc | hc
    · exact ih c hc
    · simp only [List.mem_singleton] at hc
      exact ⟨n % 10, hc⟩

theorem natToDigits_ne_nil (n : Nat) : natToDigits n ≠ [] := by
  rw [natToDigits]
  split <;> simp

theorem parseNatAux_append (l1 l2 : List Char) (acc : Nat)
    (h : ∀ c ∈ l1, c.isDigit = true) :
    parseNatAux (l1 ++ l2) acc = parseNatAux l2 (parseNatAux l1 acc) := by
  induction l1 generalizing acc with
  | nil => simp [parseNatAux]
  | cons c cs ih =>
    have hc : c.isDigit = true := h c (List.mem_cons_self c cs)
    simp only [List.cons_append, parseNatAux, hc, if_true]
    exact ih _ fun d hd => h d (List.mem_cons_of_mem c hd)

theorem parseNatAux_natToDigits (n : Nat) : ∀ acc : Nat,
    parseNatAux (natToDigits n) acc = acc * 10 ^ (natToDigits n).length + n := by
  induction n using natToDigits.induct with
  | case1 n h =>
    intro acc
    rw [natToDigits, if_pos h]
    simp only [parseNatAux, digitChar_isDigit, if_true, List.length_singleton, pow_one]
    rw [digitChar_val n h]
  | case2 n h ih =>
    intro acc
    rw [natToDigits, if_neg h]
    rw [parseNatAux_append _ _ _ fun c hc => by
      obtain ⟨d, rfl⟩ := natToDigits_shape _ c hc
      exact digitChar_isDigit d]
    rw [ih acc]
    simp only [parseNatAux, digitChar_isDigit, if_true, List.length_append,
      List.length_singleton]
    rw [digitChar_val (n % 10) (by omega), pow_succ]
    have hsplit : n / 10 * 10 + n % 10 = n := by omega
    calc (acc * 10 ^ (natToDigits (n / 10)).length + n / 10) * 10 + n % 10
        = acc * (10 ^ (natToDigits (n / 10)).length * 10) + (n / 10 * 10 + n % 10) := by ring
      _ = acc * (10 ^ (natToDigits (n / 10)).length * 10) + n := by rw [hsplit]

theorem parseNatLead_natToDigits (n : Nat) : parseNatLead (natToDigits n) = some n := by
  obtain ⟨c, rest, hcr⟩ : ∃ c rest, natToDigits n = c :: rest := by
    cases h : natToDigits n with
    | nil => exact absurd h (natToDigits_ne_nil n)
    | cons c rest => exact ⟨c, rest, rfl⟩
  have hdig : c.isDigit = true := by
    obtain ⟨d, rfl⟩ := natToDigits_shape n c (hcr ▸ List.mem_cons_self c rest)
    exact digitChar_isDigit d
  have hval : parseNatAux (c :: rest) 0 = n := by
    have := parseNatAux_natToDigits n 0
    rw [hcr] at this
    simpa using this
  simp only [parseNatAux, hdig, if_true, Nat.zero_mul, Nat.zero_add] at hval
  rw [hcr]
  simp only [parseNatLead, hdig, if_true, hval]

theorem parseIntChars_not_sign (c : Char) (rest : List Char)
    (h1 : c ≠ '-') (h2 : c ≠ '+') :
    parseIntChars (c :: rest) = (parseNatLead (c :: rest)).map fun n => (n : Int) := by
  unfold parseIntChars
  split
  · rename_i heq
    rw [List.cons.injEq] at heq
    exact absurd heq.1 h1
  · rename_i heq
    rw [List.cons.injEq] at heq
    exact absurd heq.1 h2
  · rfl

theorem parseIntChars_intToChars (x : Int) : parseIntChars (intToChars x) = some x := by
  unfold intToChars
  split
  · rename_i hneg
    have hstep : parseIntChars ('-' :: natToDigits x.natAbs) =
        (parseNatLead (natToDigits x.natAbs)).map fun n => -(n : Int) := rfl
    rw [hstep, parseNatLead_natToDigits]
    show some (-(x.natAbs : Int)) = some x
    congr 1
    omega
  · rename_i hpos
    obtain ⟨c, rest, hcr⟩ : ∃ c rest, natToDigits x.toNat = c :: rest := by
      cases h : natToDigits x.toNat with
      | nil => exact absurd h (natToDigits_ne_nil _)
      | cons c rest => exact ⟨c, rest, rfl⟩
    obtain ⟨d, hd⟩ := natToDigits_shape _ c (hcr ▸ List.mem_cons_self c rest)
    rw [hcr, parseIntChars_not_sign c rest (hd ▸ digitChar_ne_dash d) (hd ▸ digitChar_ne_plus d),
      ← hcr, parseNatLead_natToDigits]
    show some ((x.toNat : Int)) = some x
    congr 1
    omega

theorem comma_not_mem_intToChars (x : Int) : ',' ∉ intToChars x := by
  unfold intToChars
  split
  · intro hmem
    rcases List.mem_cons.mp hmem with h | h
    · exact absurd h.symm (by decide)
    · obtain ⟨d, hd⟩ := natToDigits_shape _ _ h
      exact digitChar_ne_comma d hd.symm
  · intro hmem
    obtain ⟨d, hd⟩ := natToDigits_shape _ _ hmem
    exact digitChar_ne_comma d hd.symm

theorem splitComma_noComma (l : List Char) (h : ',' ∉ l) : splitComma l = [l] := by
  induction l with
  | nil => rfl
  | cons c cs ih =>
    have hc : ¬ c = ',' := fun hcc => h (hcc ▸ List.mem_cons_self c cs)
    have hcs : ',' ∉ cs := fun hm => h (List.mem_cons_of_mem c hm)
    simp only [splitComma, if_neg hc]
    rw [ih hcs]

theorem splitComma_append (l1 l2 : List Char) (h : ',' ∉ l1) :
    splitComma (l1 ++ ',' :: l2) = l1 :: splitComma l2 := by
  induction l1 with
  | nil => simp [splitComma]
  | cons c cs ih =>
    have hc : ¬ c = ',' := fun hcc => h (hcc ▸ List.mem_cons_self c cs)
    have hcs : ',' ∉ cs := fun hm => h (List.mem_cons_of_mem c hm)
    simp only [List.cons_append, splitComma, if_neg hc, List.append_eq]
    rw [ih hcs]

/-- `splitComma` of an encoded key yields exactly the three components. -/
theorem splitComma_getEdgeAsKey (e : GridEdge) :
    splitComma (getEdgeAsKey e) =
      [intToChars e.x, intToChars e.y, if e.vertical then ['v'] else ['h']] := by
  unfold getEdgeAsKey
  have h1 : intToChars e.x ++ [','] ++ intToChars e.y ++ [','] ++
      (if e.vertical then ['v'] else ['h']) =
      intToChars e.x ++ (',' :: (intToChars e.y ++
        (',' :: (if e.vertical then ['v'] else ['h'])))) := by
    simp [List.append_assoc]
  rw [h1, splitComma_append _ _ (comma_not_mem_intToChars e.x),
    splitComma_append _ _ (comma_not_mem_intToChars e.y),
    splitComma_noComma _ (by split <;> decide)]

/-- C9: decoding the canonical key produced by `getEdgeAsKey` recovers exactly
the original edge (coordinates parse back, orientation letter maps back). -/
theorem parseEdgeKey_getEdgeAsKey_roundtrip (e : GridEdge) :
    parseEdgeKey (getEdgeAsKey e) = e.toParsed := by
  unfold parseEdgeKey GridEdge.toParsed
  rw [splitComma_getEdgeAsKey]
  simp only [List.get?_eq_getElem?, List.getElem?_cons_zero, List.getElem?_cons_succ,
    Option.some_bind, parseIntChars_intToChars]
  refine congrArg (ParsedEdge.mk _ _) ?_
  cases hv : e.vertical <;> simp

/-- C10 counterexample: the malformed key `"1,2"` (never produced by
`getEdgeAsKey`, which always emits two commas) is decoded without any error
into the very same edge object as the well-formed key `"1,2,h"` — silently
returning a wrong, valid-looking edge instead of failing fast. -/
theorem parseEdgeKey_malformed_counterexample :
    (∀ e : GridEdge, getEdgeAsKey e ≠ ['1', ',', '2']) ∧
    parseEdgeKey ['1', ',', '2'] = parseEdgeKey ['1', ',', '2', ',', 'h'] := by
  constructor
  · intro e heq
    have hx := List.count_eq_zero.mpr (comma_not_mem_intToChars e.x)
    have hy := List.count_eq_zero.mpr (comma_not_mem_intToChars e.y)
    have ht : (if e.vertical then ['v'] else ['h']).count ',' = 0 := by
      cases e.vertical <;> decide
    have hcount : (getEdgeAsKey e).count ',' = 2 := by
      unfold getEdgeAsKey
      simp only [List.count_append, hx, hy, ht]
      decide
    rw [heq] at hcount
    exact absurd hcount (by decide)
  · decide

/-- C10 amended: `parseEdgeKey` never fails; on a malformed key it silently
returns an edge object — coordinates that cannot be parsed become `NaN`
(modelled `none`), an all-garbage key yields `(NaN, NaN, false)`, and a
two-component key like `"1,2"` yields the same valid-looking edge as the
well-formed `"1,2,h"`. -/
theorem parseEdgeKey_malformed_silent :
    parseEdgeKey ['1', ',', '2'] = ⟨some 1, some 2, false⟩ ∧
    parseEdgeKey ['g', 'a', 'r'] = ⟨none, none, false⟩ := by
  constructor <;> decide

/-! ## Adjacency, transform and neighbor lemmas -/

theorem adjacent_symm {a b : Cell} (h : adjacent a b) : adjacent b a := by
  unfold adjacent at h ⊢
  omega

theorem rotatePoint_adjacent {a b : Coordinate} (h : adjacent a b) :
    adjacent (rotatePoint a) (rotatePoint b) := by
  unfold adjacent at h ⊢
  simp only [rotatePoint]
  omega

theorem flipPoint_adjacent {a b : Coordinate} (h : adjacent a b) :
    adjacent (flipPoint a) (flipPoint b) := by
  unfold adjacent at h ⊢
  simp only [flipPoint]
  omega

theorem applyRotations_adjacent {a b : Coordinate} (k : Nat) (h : adjacent a b) :
    adjacent (applyRotations a k) (applyRotations b k) := by
  induction k with
  | zero => exact h
  | succ k ih => exact rotatePoint_adjacent ih

theorem rotatePoint_inj {a b : Coordinate} (h : rotatePoint a = rotatePoint b) : a = b := by
  obtain ⟨ax, ay⟩ := a
  obtain ⟨bx, by'⟩ := b
  simp only [rotatePoint, Coordinate.mk.injEq] at h ⊢
  omega

theorem flipPoint_inj {a b : Coordinate} (h : flipPoint a = flipPoint b) : a = b := by
  obtain ⟨ax, ay⟩ := a
  obtain ⟨bx, by'⟩ := b
  simp only [flipPoint, Coordinate.mk.injEq] at h ⊢
  omega

theorem applyRotations_inj {a b : Coordinate} (k : Nat)
    (h : applyRotations a k = applyRotations b k) : a = b := by
  induction k with
  | zero => exact h
  | succ k ih => exact ih (rotatePoint_inj h)

/-- The per-cell transform of `getAbsoluteCells` is injective, so pieces with
distinct local cells occupy distinct absolute cells. -/
theorem getAbsoluteCells_nodup (piece : Piece) (h : piece.cells.Nodup) :
    (getAbsoluteCells piece).Nodup := by
  unfold getAbsoluteCells
  refine List.Nodup.map ?_ h
  intro a b hab
  simp only at hab
  have hcomp : ∀ u v : Coordinate, u.x = v.x → u.y = v.y → u = v := by
    intro u v h1 h2
    cases u
    cases v
    simp_all
  have h2 : applyRotations (if piece.isFlipped then flipPoint a else a) (piece.rotation / 90 % 4) =
      applyRotations (if piece.isFlipped then flipPoint b else b) (piece.rotation / 90 % 4) := by
    have hx := congrArg Coordinate.x hab
    have hy := congrArg Coordinate.y hab
    simp only at hx hy
    exact hcomp _ _ (by omega) (by omega)
  have h3 := applyRotations_inj _ h2
  by_cases hf : piece.isFlipped
  · rw [hf] at h3
    simp only [if_true] at h3
    exact flipPoint_inj h3
  · simp only [hf, if_false] at h3
    exact h3

theorem mem_getNeighbors {S : List Cell} {cuts : List GridEdge} {c n : Cell}
    (h : n ∈ getNeighbors S cuts c) : n ∈ S ∧ adjacent c n := by
  unfold getNeighbors at h
  simp only [List.mem_append] at h
  rcases h with ((h | h) | h) | h <;>
  · split at h
    · rename_i hcond
      simp only [List.mem_singleton] at h
      subst h
      refine ⟨hcond.1, ?_⟩
      unfold adjacent
      simp only
      omega
    · simp at h

theorem getNeighbors_nodup (S : List Cell) (cuts : List GridEdge) (c : Cell) :
    (getNeighbors S cuts c).Nodup := by
  unfold getNeighbors
  split_ifs <;>
    simp_all [List.nodup_append, List.nodup_cons, Coordinate.mk.injEq, List.disjoint_left] <;>
    omega

/-! ## Connectivity lemmas -/

theorem connectedIn_mono {l l' : List Cell} (hsub : ∀ x ∈ l, x ∈ l') {a b : Cell}
    (h : connectedIn l a b) : connectedIn l' a b :=
  Relation.ReflTransGen.mono (fun u v h' => ⟨hsub u h'.1, hsub v h'.2.1, h'.2.2⟩) h

theorem connectedIn_symm {l : List Cell} {a b : Cell} (h : connectedIn l a b) :
    connectedIn l b a :=
  Relation.ReflTransGen.symmetric (fun _ _ h' => ⟨h'.2.1, h'.1, adjacent_symm h'.2.2⟩) h

theorem isConnected_single_cell (c : Cell) : isConnected [c] := by
  intro a ha b hb
  simp only [List.mem_singleton] at ha hb
  subst ha
  subst hb
  exact Relation.ReflTransGen.refl

/-- Appending a batch of cells all adjacent to one member keeps a cell list
connected. -/
theorem isConnected_append_adj (l ns : List Cell) (c : Cell) (hl : isConnected l)
    (hc : c ∈ l) (hns : ∀ n ∈ ns, adjacent c n) : isConnected (l ++ ns) := by
  have hkey : ∀ a ∈ l ++ ns, connectedIn (l ++ ns) a c := by
    intro a ha
    rcases List.mem_append.mp ha with h | h
    · exact connectedIn_mono (fun x hx => List.mem_append_left ns hx) (hl a h c hc)
    · exact Relation.ReflTransGen.single ⟨ha, List.mem_append_left ns hc,
        adjacent_symm (hns a h)⟩
  intro a ha b hb
  exact (hkey a ha).trans (connectedIn_symm (hkey b hb))

/-- An adjacency-preserving map preserves connectedness of a cell list. -/
theorem isConnected_map (f : Cell → Cell)
    (hf : ∀ a b : Cell, adjacent a b → adjacent (f a) (f b))
    (l : List Cell) (h : isConnected l) : isConnected (l.map f) := by
  intro x hx y hy
  obtain ⟨a, ha, rfl⟩ := List.mem_map.mp hx
  obtain ⟨b, hb, rfl⟩ := List.mem_map.mp hy
  exact Relation.ReflTransGen.lift f
    (fun u v h' => ⟨List.mem_map_of_mem f h'.1, List.mem_map_of_mem f h'.2.1, hf u v h'.2.2⟩)
    (h a ha b hb)

/-! ## Flood-fill invariants -/

/-- Structure of one flood fill: it appends the same block of newly discovered
cells to both `component` and `visited`; every new cell is an occupied cell not
previously visited, and visited stays duplicate-free. -/
theorem bfsLoop_structure (S : List Cell) (cuts : List GridEdge) :
    ∀ queue visited component, ∃ added,
      (bfsLoop S cuts queue visited component).1 = component ++ added ∧
      (bfsLoop S cuts queue visited component).2 = visited ++ added ∧
      (∀ a ∈ added, a ∈ S ∧ a ∉ visited) ∧
      (visited.Nodup → (visited ++ added).Nodup) := by
  intro queue visited component
  induction queue, visited, component using bfsLoop.induct S cuts with
  | case1 visited component =>
    exact ⟨[], by simp [bfsLoop], by simp [bfsLoop], by simp, by simp⟩
  | case2 curr rest visited component neis ih =>
    obtain ⟨added, h1, h2, h3, h4⟩ := ih
    have hneis : ∀ a ∈ (getNeighbors S cuts curr).filter (fun n => n ∉ visited),
        a ∈ S ∧ a ∉ visited := by
      intro a ha
      have h' := List.mem_filter.mp ha
      exact ⟨(mem_getNeighbors h'.1).1, by simpa using h'.2⟩
    refine ⟨(getNeighbors S cuts curr).filter (fun n => n ∉ visited) ++ added, ?_, ?_, ?_, ?_⟩
    · simp only [bfsLoop]
      rw [h1, List.append_assoc]
    · simp only [bfsLoop]
      rw [h2, List.append_assoc]
    · intro a ha
      rcases List.mem_append.mp ha with h | h
      · exact hneis a h
      · have := h3 a h
        exact ⟨this.1, fun hv => this.2 (List.mem_append_left _ hv)⟩
    · intro hnd
      have hnd2 : (visited ++ (getNeighbors S cuts curr).filter (fun n => n ∉ visited)).Nodup := by
        refine List.Nodup.append hnd ((getNeighbors_nodup S cuts curr).filter _) ?_
        intro a hav han
        exact (hneis a han).2 hav
      have := h4 hnd2
      rwa [List.append_assoc] at this

/-- Every cell the flood fill adds to `component` is reachable: the component
stays connected as it grows, since each new cell is a neighbor of the dequeued
cell, which is already in the component. -/
theorem bfsLoop_connected (S : List Cell) (cuts : List GridEdge) :
    ∀ queue visited component, (∀ q ∈ queue, q ∈ component) → isConnected component →
      isConnected (bfsLoop S cuts queue visited component).1 := by
  intro queue visited component
  induction queue, visited, component using bfsLoop.induct S cuts with
  | case1 visited component =>
    intro _ hc
    simpa [bfsLoop] using hc
  | case2 curr rest visited component neis ih =>
    intro hq hc
    simp only [bfsLoop]
    apply ih
    · intro q hq'
      rcases List.mem_append.mp hq' with h | h
      · exact List.mem_append_left _ (hq q (List.mem_cons_of_mem curr h))
      · exact List.mem_append_right _ h
    · refine isConnected_append_adj component _ curr hc (hq curr (List.mem_cons_self curr rest)) ?_
      intro n hn
      exact (mem_getNeighbors (List.mem_filter.mp hn).1).2

/-- At termination of the flood fill, the visited set is closed under
unblocked neighbors, provided every already-visited cell not still queued had
its neighbors visited. -/
theorem bfsLoop_closed (S : List Cell) (cuts : List GridEdge) :
    ∀ queue visited component,
      (∀ v ∈ visited, v ∉ queue → ∀ n ∈ getNeighbors S cuts v, n ∈ visited) →
      ∀ v ∈ (bfsLoop S cuts queue visited component).2,
        ∀ n ∈ getNeighbors S cuts v, n ∈ (bfsLoop S cuts queue visited component).2 := by
  intro queue visited component
  induction queue, visited, component using bfsLoop.induct S cuts with
  | case1 visited component =>
    intro hInv v hv n hn
    simp only [bfsLoop] at hv ⊢
    exact hInv v hv (by simp) n hn
  | case2 curr rest visited component neis ih =>
    intro hInv
    simp only [bfsLoop]
    apply ih
    intro v hv hvq n hn
    rcases List.mem_append.mp hv with hvis | hneis
    · by_cases hvc : v = curr
      · subst hvc
        by_cases hnv : n ∈ visited
        · exact List.mem_append_left _ hnv
        · exact List.mem_append_right _ (List.mem_filter.mpr ⟨hn, by simpa using hnv⟩)
      · have hvq0 : v ∉ curr :: rest := by
          intro hmem
          rcases List.mem_cons.mp hmem with h | h
          · exact hvc h
          · exact hvq (List.mem_append_left _ h)
        exact List.mem_append_left _ (hInv v hvis hvq0 n hn)
    · exact absurd (List.mem_append_right rest hneis) hvq

/-! ## Component-loop invariants -/

/-- Every component the cut loop emits is non-empty and 4-connected. -/
theorem cutLoop_nonempty_connected (S : List Cell) (cuts : List GridEdge) :
    ∀ starts visited, ∀ comp ∈ cutLoop S cuts starts visited,
      comp ≠ [] ∧ isConnected comp := by
  intro starts
  induction starts with
  | nil =>
    intro visited comp hc
    simp [cutLoop] at hc
  | cons s rest ih =>
    intro visited comp hc
    simp only [cutLoop] at hc
    split at hc
    · exact ih visited comp hc
    · rcases List.mem_cons.mp hc with h | h
      · subst h
        obtain ⟨added, h1, _, _, _⟩ := bfsLoop_structure S cuts [s] (visited ++ [s]) [s]
        constructor
        · rw [h1]
          simp
        · refine bfsLoop_connected S cuts [s] (visited ++ [s]) [s] ?_ ?_
          · intro q hq
            simpa using hq
          · exact isConnected_single_cell s
      · exact ih _ comp h

/-- The cut loop can only skip start cells that are already visited. -/
theorem cutLoop_all_visited (S : List Cell) (cuts : List GridEdge) :
    ∀ starts visited, (∀ s ∈ starts, s ∈ visited) → cutLoop S cuts starts visited = [] := by
  intro starts
  induction starts with
  | nil => intro visited _; simp [cutLoop]
  | cons s rest ih =>
    intro visited h
    simp only [cutLoop]
    rw [if_pos (h s (List.mem_cons_self s rest))]
    exact ih visited fun t ht => h t (List.mem_cons_of_mem s ht)

/-- Partition property of the cut loop: the concatenation of all emitted
components is duplicate-free, consists of occupied unvisited cells, and covers
every start cell not already visited. -/
theorem cutLoop_flatten (S : List Cell) (cuts : List GridEdge) :
    ∀ starts visited, visited.Nodup → (∀ s ∈ starts, s ∈ S) →
      (cutLoop S cuts starts visited).flatten.Nodup ∧
      (∀ c ∈ (cutLoop S cuts starts visited).flatten, c ∈ S ∧ c ∉ visited) ∧
      (∀ s ∈ starts, s ∈ visited ∨ s ∈ (cutLoop S cuts starts visited).flatten) := by
  intro starts
  induction starts with
  | nil =>
    intro visited hnd _
    simp [cutLoop]
  | cons s rest ih =>
    intro visited hnd hS
    have hSrest : ∀ t ∈ rest, t ∈ S := fun t ht => hS t (List.mem_cons_of_mem s ht)
    simp only [cutLoop]
    split
    · rename_i hsv
      obtain ⟨ha, hb, hc⟩ := ih visited hnd hSrest
      refine ⟨ha, hb, ?_⟩
      intro t ht
      rcases List.mem_cons.mp ht with h | h
      · exact Or.inl (h ▸ hsv)
      · exact hc t h
    · rename_i hsv
      obtain ⟨added, h1, h2, h3, h4⟩ := bfsLoop_structure S cuts [s] (visited ++ [s]) [s]
      have hvs_nd : (visited ++ [s]).Nodup := by
        refine List.Nodup.append hnd (List.nodup_singleton s) ?_
        intro a hav has
        simp only [List.mem_singleton] at has
        subst has
        exact hsv hav
      have hvis_nd : ((visited ++ [s]) ++ added).Nodup := h4 hvs_nd
      have h2' : (bfsLoop S cuts [s] (visited ++ [s]) [s]).2 =
          visited ++ (s :: added) := by
        rw [h2, List.append_assoc]
        rfl
      have hvis_nd' : (visited ++ (s :: added)).Nodup := by
        rwa [List.append_assoc] at hvis_nd
      have hcomp_eq : (bfsLoop S cuts [s] (visited ++ [s]) [s]).1 = s :: added := h1
      have hcomp_sub : ∀ c ∈ s :: added, c ∈ S ∧ c ∉ visited := by
        intro c hcm
        rcases List.mem_cons.mp hcm with h | h
        · subst h
          exact ⟨hS c (List.mem_cons_self c rest), hsv⟩
        · have := h3 c h
          exact ⟨this.1, fun hv => this.2 (List.mem_append_left _ hv)⟩
      have hcomp_nd : (s :: added).Nodup := (List.nodup_append.mp hvis_nd').2.1
      have hcomp_vis : ∀ c ∈ s :: added, c ∈ (bfsLoop S cuts [s] (visited ++ [s]) [s]).2 := by
        intro c hcm
        rw [h2']
        exact List.mem_append_right _ hcm
      obtain ⟨ha, hb, hc⟩ := ih (bfsLoop S cuts [s] (visited ++ [s]) [s]).2
        (h2' ▸ hvis_nd') hSrest
      refine ⟨?_, ?_, ?_⟩
      · rw [List.flatten_cons, hcomp_eq]
        refine List.Nodup.append hcomp_nd ha ?_
        intro a hav haf
        exact (hb a haf).2 (hcomp_vis a hav)
      · intro c hcm
        rw [List.flatten_cons, hcomp_eq] at hcm
        rcases List.mem_append.mp hcm with h | h
        · exact hcomp_sub c h
        · have := hb c h
          refine ⟨this.1, fun hv => this.2 ?_⟩
          rw [h2']
          exact List.mem_append_left _ hv
      · intro t ht
        rcases List.mem_cons.mp ht with h | h
        · subst h
          refine Or.inr ?_
          rw [List.flatten_cons, hcomp_eq]
          exact List.mem_append_left _ (List.mem_cons_self t added)
        · rcases hc t h with hv | hf
          · rw [h2'] at hv
            rcases List.mem_append.mp hv with hv | hv
            · exact Or.inl hv
            · refine Or.inr ?_
              rw [List.flatten_cons, hcomp_eq]
              exact List.mem_append_left _ hv
          · refine Or.inr ?_
            rw [List.flatten_cons]
            exact List.mem_append_right _ hf

/-! ## Normalization and piece-building lemmas -/

theorem normalizePiece_fst_length (l : List Cell) :
    (normalizePiece l).1.length = l.length := by
  cases l with
  | nil => rfl
  | cons c cs => simp [normalizePiece]

theorem normalizePiece_fst (l : List Cell) :
    (normalizePiece l).1 =
      l.map fun d => ⟨d.x - (normalizePiece l).2.x, d.y - (normalizePiece l).2.y⟩ := by
  cases l with
  | nil => rfl
  | cons c cs => simp [normalizePiece]

theorem buildPieces_cell_lengths (piece : Piece) (now : Nat) :
    ∀ comps idx, (buildPieces piece now comps idx).map (fun p => p.cells.length) =
      comps.map List.length := by
  intro comps
  induction comps with
  | nil => intro idx; rfl
  | cons comp rest ih =>
    intro idx
    simp only [buildPieces, List.map_cons, normalizePiece_fst_length, ih (idx + 1)]

theorem buildPieces_length (piece : Piece) (now : Nat) :
    ∀ comps idx, (buildPieces piece now comps idx).length = comps.length := by
  intro comps
  induction comps with
  | nil => intro idx; rfl
  | cons comp rest ih =>
    intro idx
    simp only [buildPieces, List.length_cons, ih (idx + 1)]

theorem mem_buildPieces (piece : Piece) (now : Nat) :
    ∀ comps idx p, p ∈ buildPieces piece now comps idx →
      ∃ comp ∈ comps, p.cells = (normalizePiece comp).1 ∧
        p.position = (normalizePiece comp).2 ∧ p.rotation = 0 ∧ p.isFlipped = false := by
  intro comps
  induction comps with
  | nil =>
    intro idx p hp
    simp [buildPieces] at hp
  | cons comp rest ih =>
    intro idx p hp
    rcases List.mem_cons.mp hp with h | h
    · subst h
      exact ⟨comp, List.mem_cons_self comp rest, rfl, rfl, rfl, rfl⟩
    · obtain ⟨c, hc, hrest⟩ := ih (idx + 1) p h
      exact ⟨c, List.mem_cons_of_mem comp hc, hrest⟩

/-- A piece rebuilt from a component occupies exactly the component's absolute
cells: the normalization offset is re-added by `getAbsoluteCells`. -/
theorem getAbsoluteCells_rebuilt (p : Piece) (comp : List Cell)
    (hcells : p.cells = (normalizePiece comp).1) (hpos : p.position = (normalizePiece comp).2)
    (hrot : p.rotation = 0) (hflip : p.isFlipped = false) :
    getAbsoluteCells p = comp := by
  unfold getAbsoluteCells
  rw [hcells, hpos, hrot, hflip, normalizePiece_fst, List.map_map]
  have hid : ∀ c : Cell,
      ((fun cell : Cell =>
        let c1 := if false = true then flipPoint cell else cell
        let c2 := applyRotations c1 (0 / 90 % 4)
        (⟨c2.x + (normalizePiece comp).2.x, c2.y + (normalizePiece comp).2.y⟩ : Cell)) ∘
        fun d : Cell => (⟨d.x - (normalizePiece comp).2.x, d.y - (normalizePiece comp).2.y⟩ : Cell))
        c = c := by
    intro c
    cases c
    simp [applyRotations]
  rw [List.map_congr_left fun c _ => hid c]
  simp

/-- An absolute-cell image of a connected local cell list is connected: the
flip/rotate/translate transform preserves 4-adjacency. -/
theorem getAbsoluteCells_connected (piece : Piece) (h : isConnected piece.cells) :
    isConnected (getAbsoluteCells piece) := by
  unfold getAbsoluteCells
  refine isConnected_map _ ?_ _ h
  intro a b hab
  have h1 : adjacent (if piece.isFlipped then flipPoint a else a)
      (if piece.isFlipped then flipPoint b else b) := by
    split
    · exact flipPoint_adjacent hab
    · exact hab
  have h2 := applyRotations_adjacent (piece.rotation / 90 % 4) h1
  unfold adjacent at h2 ⊢
  dsimp only
  omega

/-! ## Claim theorems: the cutting engine -/

/-- C1: a cut conserves cells — the total cell count over all returned pieces
equals the input piece's cell count (the piece's cells, a set, are assumed
duplicate-free as produced by level load or previous cuts). -/
theorem performCut_conserves_cellCount (now : Nat) (piece : Piece) (cuts : List GridEdge)
    (h : piece.cells.Nodup) :
    ((performCut now piece cuts).map fun p => p.cells.length).sum = piece.cells.length := by
  unfold performCut
  have hSnd : (getAbsoluteCells piece).Nodup := getAbsoluteCells_nodup piece h
  obtain ⟨ha, hb, hc⟩ := cutLoop_flatten (getAbsoluteCells piece) cuts
    (getAbsoluteCells piece) [] List.nodup_nil (fun s hs => hs)
  rw [buildPieces_cell_lengths, ← List.length_flatten]
  have hset : (cutLoop (getAbsoluteCells piece) cuts (getAbsoluteCells piece) []).flatten.toFinset
      = (getAbsoluteCells piece).toFinset := by
    ext c
    simp only [List.mem_toFinset]
    constructor
    · intro hcf
      exact (hb c hcf).1
    · intro hcs
      rcases hc c hcs with hv | hf
      · simp at hv
      · exact hf
  have hlen : (cutLoop (getAbsoluteCells piece) cuts (getAbsoluteCells piece) []).flatten.length
      = (getAbsoluteCells piece).length := by
    rw [← List.toFinset_card_of_nodup ha, ← List.toFinset_card_of_nodup hSnd, hset]
  rw [hlen]
  unfold getAbsoluteCells
  exact List.length_map _ _

/-- C1 witness: conservation at a concrete one-cell piece with no cuts. -/
theorem performCut_conserves_cellCount_witness :
    ([⟨0, 0⟩] : List Cell).Nodup ∧
    ((performCut 0 ⟨"w", [⟨0, 0⟩], ⟨0, 0⟩, 0, false, "c"⟩ []).map fun p => p.cells.length).sum
      = ([⟨0, 0⟩] : List Cell).length :=
  ⟨by decide, performCut_conserves_cellCount 0 ⟨"w", [⟨0, 0⟩], ⟨0, 0⟩, 0, false, "c"⟩ []
    (by decide)⟩

/-- C2: every piece emitted by a cut has a non-empty cell list that forms a
single 4-connected component in its own local frame. -/
theorem performCut_nonempty_connected (now : Nat) (piece : Piece) (cuts : List GridEdge) :
    ∀ p ∈ performCut now piece cuts, p.cells ≠ [] ∧ isConnected p.cells := by
  intro p hp
  unfold performCut at hp
  obtain ⟨comp, hcm, hcells, hpos, hrot, hflip⟩ := mem_buildPieces piece now _ 0 p hp
  obtain ⟨hne, hconn⟩ := cutLoop_nonempty_connected _ cuts _ _ comp hcm
  constructor
  · rw [hcells, normalizePiece_fst]
    simpa using hne
  · rw [hcells, normalizePiece_fst]
    refine isConnected_map _ ?_ comp hconn
    intro a b hab
    unfold adjacent at hab ⊢
    simp only
    omega

/-- C3: a cut-edge set that separates no pair of adjacent occupied cells
yields exactly one piece, occupying exactly the input's absolute cells. -/
theorem performCut_noop (now : Nat) (piece : Piece) (cuts : List GridEdge)
    (hne : piece.cells ≠ []) (hconn : isConnected piece.cells)
    (hnosep : noSeparation (getAbsoluteCells piece) cuts) :
    ∃ q, performCut now piece cuts = [q] ∧
      ∀ c : Cell, c ∈ getAbsoluteCells q ↔ c ∈ getAbsoluteCells piece := by
  obtain ⟨a0, rest, hS⟩ : ∃ a0 rest, getAbsoluteCells piece = a0 :: rest := by
    cases hcase : getAbsoluteCells piece with
    | nil =>
      unfold getAbsoluteCells at hcase
      rw [List.map_eq_nil_iff] at hcase
      exact absurd hcase hne
    | cons a0 rest => exact ⟨a0, rest, rfl⟩
  have hSconn : isConnected (getAbsoluteCells piece) := getAbsoluteCells_connected piece hconn
  obtain ⟨added, h1, h2, h3, _⟩ := bfsLoop_structure (getAbsoluteCells piece) cuts
    [a0] ([] ++ [a0]) [a0]
  have hclosed := bfsLoop_closed (getAbsoluteCells piece) cuts [a0] ([] ++ [a0]) [a0]
    (by
      intro v hv hvq
      simp only [List.nil_append] at hv
      exact absurd hv hvq)
  have ha0vis : a0 ∈ (bfsLoop (getAbsoluteCells piece) cuts [a0] ([] ++ [a0]) [a0]).2 := by
    rw [h2]
    exact List.mem_append_left _ (by simp)
  have hreach : ∀ s, connectedIn (getAbsoluteCells piece) a0 s →
      s ∈ (bfsLoop (getAbsoluteCells piece) cuts [a0] ([] ++ [a0]) [a0]).2 := by
    intro s hpath
    induction hpath with
    | refl => exact ha0vis
    | tail _ hstep ih =>
      rename_i b c _
      have hnb : c ∈ getNeighbors (getAbsoluteCells piece) cuts b :=
        hnosep b hstep.1 c hstep.2.1 hstep.2.2
      exact hclosed b ih c hnb
  have hSsub : ∀ s ∈ getAbsoluteCells piece,
      s ∈ (bfsLoop (getAbsoluteCells piece) cuts [a0] ([] ++ [a0]) [a0]).2 :=
    fun s hs => hreach s (hSconn a0 (hS ▸ List.mem_cons_self a0 rest) s hs)
  have hrec : cutLoop (getAbsoluteCells piece) cuts rest
      (bfsLoop (getAbsoluteCells piece) cuts [a0] ([] ++ [a0]) [a0]).2 = [] := by
    refine cutLoop_all_visited _ _ _ _ ?_
    intro s hsr
    exact hSsub s (hS ▸ List.mem_cons_of_mem a0 hsr)
  have hcomps : cutLoop (getAbsoluteCells piece) cuts (getAbsoluteCells piece) [] =
      [(bfsLoop (getAbsoluteCells piece) cuts [a0] ([] ++ [a0]) [a0]).1] := by
    rw [hS]
    simp only [cutLoop]
    rw [if_neg (by simp)]
    rw [← hS, hrec]
  have hcompS : ∀ c, c ∈ (bfsLoop (getAbsoluteCells piece) cuts [a0] ([] ++ [a0]) [a0]).1 ↔
      c ∈ getAbsoluteCells piece := by
    intro c
    constructor
    · intro hcm
      rw [h1] at hcm
      rcases List.mem_append.mp hcm with h | h
      · simp only [List.mem_singleton] at h
        exact h ▸ (hS ▸ List.mem_cons_self a0 rest)
      · exact (h3 c h).1
    · intro hcs
      have := hSsub c hcs
      rw [h2] at this
      rw [h1]
      simpa using this
  have hbuild : performCut now piece cuts =
      [⟨piece.id ++ "-" ++ toString now ++ "-" ++ toString 0,
        (normalizePiece (bfsLoop (getAbsoluteCells piece) cuts [a0] ([] ++ [a0]) [a0]).1).1,
        (normalizePiece (bfsLoop (getAbsoluteCells piece) cuts [a0] ([] ++ [a0]) [a0]).1).2,
        0, false, piece.color⟩] := by
    unfold performCut
    dsimp only
    rw [hcomps]
    simp only [buildPieces]
  refine ⟨_, hbuild, ?_⟩
  intro c
  rw [getAbsoluteCells_rebuilt _ (bfsLoop (getAbsoluteCells piece) cuts [a0]
    ([] ++ [a0]) [a0]).1 rfl rfl rfl rfl]
  exact hcompS c

/-- C2 witness: the cut of a concrete one-cell piece emits a piece with
non-empty, connected cells. -/
theorem performCut_nonempty_connected_witness :
    ∃ p, p ∈ performCut 0 ⟨"w", [⟨0, 0⟩], ⟨0, 0⟩, 0, false, "c"⟩ [] ∧
      p.cells ≠ [] ∧ isConnected p.cells := by
  have heval : performCut 0 ⟨"w", [⟨0, 0⟩], ⟨0, 0⟩, 0, false, "c"⟩ [] =
      [⟨"w" ++ "-" ++ toString 0 ++ "-" ++ toString 0, [⟨0, 0⟩], ⟨0, 0⟩, 0, false, "c"⟩] := by
    simp [performCut, cutLoop, bfsLoop, getNeighbors, getAbsoluteCells, applyRotations,
      normalizePiece, buildPieces]
  have hmem : (⟨"w" ++ "-" ++ toString 0 ++ "-" ++ toString 0, [⟨0, 0⟩], ⟨0, 0⟩, 0, false, "c"⟩ :
      Piece) ∈ performCut 0 ⟨"w", [⟨0, 0⟩], ⟨0, 0⟩, 0, false, "c"⟩ [] := by
    rw [heval]
    exact List.mem_cons_self _ _
  exact ⟨_, hmem, performCut_nonempty_connected 0 _ [] _ hmem⟩

/-- C3 witness: the no-separation cut of a concrete one-cell piece. -/
theorem performCut_noop_witness :
    noSeparation (getAbsoluteCells ⟨"w", [⟨0, 0⟩], ⟨0, 0⟩, 0, false, "c"⟩) [] ∧
    ∃ q, performCut 0 ⟨"w", [⟨0, 0⟩], ⟨0, 0⟩, 0, false, "c"⟩ [] = [q] ∧
      ∀ c : Cell, c ∈ getAbsoluteCells q ↔
        c ∈ getAbsoluteCells ⟨"w", [⟨0, 0⟩], ⟨0, 0⟩, 0, false, "c"⟩ :=
  ⟨by unfold noSeparation; decide,
   performCut_noop 0 _ [] (by decide) (isConnected_single_cell ⟨0, 0⟩)
     (by unfold noSeparation; decide)⟩

/-- C4 counterexample: cutting the 2x2 square at (0,0) with the vertical edges
`(0,0,v)` and `(0,1,v)` does return exactly two pieces, but no returned piece
has normalized cell set `{(1,0),(1,1)}` — normalization re-anchors the right
half at the origin, so both pieces store cells `{(0,0),(0,1)}`. -/
theorem performCut_twoByTwo_counterexample :
    (performCut 7 ⟨"p", [⟨0, 0⟩, ⟨1, 0⟩, ⟨0, 1⟩, ⟨1, 1⟩], ⟨0, 0⟩, 0, false, "red"⟩
      [⟨0, 0, true⟩, ⟨0, 1, true⟩]).length = 2 ∧
    ∀ p ∈ performCut 7 ⟨"p", [⟨0, 0⟩, ⟨1, 0⟩, ⟨0, 1⟩, ⟨1, 1⟩], ⟨0, 0⟩, 0, false, "red"⟩
      [⟨0, 0, true⟩, ⟨0, 1, true⟩],
      ¬ ∀ c : Cell, c ∈ p.cells ↔ c ∈ [⟨1, 0⟩, ⟨1, 1⟩] := by
  have heval : performCut 7 ⟨"p", [⟨0, 0⟩, ⟨1, 0⟩, ⟨0, 1⟩, ⟨1, 1⟩], ⟨0, 0⟩, 0, false, "red"⟩
      [⟨0, 0, true⟩, ⟨0, 1, true⟩] =
      [⟨"p" ++ "-" ++ toString 7 ++ "-" ++ toString 0, [⟨0, 0⟩, ⟨0, 1⟩], ⟨0, 0⟩, 0, false, "red"⟩,
       ⟨"p" ++ "-" ++ toString 7 ++ "-" ++ toString 1, [⟨0, 0⟩, ⟨0, 1⟩], ⟨1, 0⟩, 0, false,
         "red"⟩] := by
    simp [performCut, cutLoop, bfsLoop, getNeighbors, getAbsoluteCells, applyRotations,
      normalizePiece, buildPieces]
  rw [heval]
  refine ⟨rfl, ?_⟩
  intro p hp hiff
  have h10 := (hiff ⟨1, 0⟩).mpr (by decide)
  rcases List.mem_cons.mp hp with h | h
  · subst h
    simp at h10
  · simp only [List.mem_singleton] at h
    subst h
    simp at h10

/-- C4 amended: the cut returns exactly two pieces; their components (absolute
cells) are `{(0,0),(0,1)}` and `{(1,0),(1,1)}`, each stored normalized as
cells `{(0,0),(0,1)}` with positions `(0,0)` and `(1,0)` respectively. -/
theorem performCut_twoByTwo_split :
    performCut 7 ⟨"p", [⟨0, 0⟩, ⟨1, 0⟩, ⟨0, 1⟩, ⟨1, 1⟩], ⟨0, 0⟩, 0, false, "red"⟩
      [⟨0, 0, true⟩, ⟨0, 1, true⟩] =
      [⟨"p" ++ "-" ++ toString 7 ++ "-" ++ toString 0, [⟨0, 0⟩, ⟨0, 1⟩], ⟨0, 0⟩, 0, false, "red"⟩,
       ⟨"p" ++ "-" ++ toString 7 ++ "-" ++ toString 1, [⟨0, 0⟩, ⟨0, 1⟩], ⟨1, 0⟩, 0, false,
         "red"⟩] ∧
    (performCut 7 ⟨"p", [⟨0, 0⟩, ⟨1, 0⟩, ⟨0, 1⟩, ⟨1, 1⟩], ⟨0, 0⟩, 0, false, "red"⟩
      [⟨0, 0, true⟩, ⟨0, 1, true⟩]).map getAbsoluteCells =
      [[⟨0, 0⟩, ⟨0, 1⟩], [⟨1, 0⟩, ⟨1, 1⟩]] := by
  constructor <;>
    simp [performCut, cutLoop, bfsLoop, getNeighbors, getAbsoluteCells, applyRotations,
      normalizePiece, buildPieces]

/-! ## Solution-checker exactness -/

theorem normalizePiece_nodup (l : List Cell) (h : l.Nodup) : (normalizePiece l).1.Nodup := by
  rw [normalizePiece_fst]
  refine List.Nodup.map ?_ h
  intro a b hab
  obtain ⟨ax, ay⟩ := a
  obtain ⟨bx, by'⟩ := b
  simp only [Coordinate.mk.injEq] at hab ⊢
  omega

/-- C5: with the piece-count and piece-size gates passed (and cells forming
sets: non-overlapping pieces, duplicate-free target), `checkSolution` returns
true exactly when the normalized flattened occupancy equals the normalized
target as a set — so the one-directional containment check after the
cardinality short-circuit decides full set equality, and any strict
superset/subset of the target fails. -/
theorem checkSolution_exact_match_iff (pieces : List Piece) (targetCells : List Cell)
    (h2 : pieces.length = 2) (h3 : ∀ p ∈ pieces, 3 ≤ p.cells.length)
    (hndC : (pieces.flatMap getAbsoluteCells).Nodup) (hndT : targetCells.Nodup) :
    (checkSolution pieces targetCells = true ↔
      (normalizePiece (pieces.flatMap getAbsoluteCells)).1.toFinset =
      (normalizePiece targetCells).1.toFinset) := by
  unfold checkSolution
  rw [if_neg (by simp [h2])]
  have hgate2 : pieces.any (fun p => p.cells.length < 3) = false := by
    rw [List.any_eq_false]
    intro p hp
    simpa using h3 p hp
  rw [hgate2]
  simp only [Bool.false_eq_true, if_false]
  have hlen_pos : (pieces.flatMap getAbsoluteCells).length ≠ 0 := by
    obtain ⟨p1, p2, hps⟩ := List.length_eq_two.mp h2
    subst hps
    have e1 : (getAbsoluteCells p1).length = p1.cells.length := by
      unfold getAbsoluteCells
      exact List.length_map _ _
    have h31 := h3 p1 (by simp)
    simp only [List.flatMap_cons, List.flatMap_nil, List.append_nil, List.length_append]
    omega
  rw [if_neg hlen_pos]
  have hndC' : (normalizePiece (pieces.flatMap getAbsoluteCells)).1.Nodup :=
    normalizePiece_nodup _ hndC
  have hndT' : (normalizePiece targetCells).1.Nodup := normalizePiece_nodup _ hndT
  have hlenC : (normalizePiece (pieces.flatMap getAbsoluteCells)).1.length =
      (pieces.flatMap getAbsoluteCells).length := normalizePiece_fst_length _
  have hlenT : (normalizePiece targetCells).1.length = targetCells.length :=
    normalizePiece_fst_length _
  split_ifs with hlen
  · refine iff_of_false (by simp) ?_
    intro hset
    refine hlen ?_
    rw [← List.toFinset_card_of_nodup hndC', ← List.toFinset_card_of_nodup hndT', hset]
  · rw [not_ne_iff] at hlen
    constructor
    · intro hall
      have hsub : (normalizePiece targetCells).1.toFinset ⊆
          (normalizePiece (pieces.flatMap getAbsoluteCells)).1.toFinset := by
        intro c hc
        rw [List.mem_toFinset] at hc ⊢
        have := List.all_eq_true.mp hall c hc
        simpa using this
      have hcard : (normalizePiece (pieces.flatMap getAbsoluteCells)).1.toFinset.card ≤
          (normalizePiece targetCells).1.toFinset.card := by
        rw [List.toFinset_card_of_nodup hndC', List.toFinset_card_of_nodup hndT', hlen]
      exact (Finset.eq_of_subset_of_card_le hsub hcard).symm
    · intro hset
      rw [List.all_eq_true]
      intro c hc
      have hc' : c ∈ (normalizePiece targetCells).1.toFinset := List.mem_toFinset.mpr hc
      rw [← hset, List.mem_toFinset] at hc'
      simpa using hc'

/-- C5 witness: two 1x3 bars stacked into a 2x3 block match the 2x3 target. -/
theorem checkSolution_exact_match_iff_witness :
    ([⟨"a", [⟨0, 0⟩, ⟨1, 0⟩, ⟨2, 0⟩], ⟨0, 0⟩, 0, false, "c"⟩,
      ⟨"b", [⟨0, 0⟩, ⟨1, 0⟩, ⟨2, 0⟩], ⟨0, 1⟩, 0, false, "d"⟩].flatMap getAbsoluteCells).Nodup ∧
    (checkSolution
        [⟨"a", [⟨0, 0⟩, ⟨1, 0⟩, ⟨2, 0⟩], ⟨0, 0⟩, 0, false, "c"⟩,
         ⟨"b", [⟨0, 0⟩, ⟨1, 0⟩, ⟨2, 0⟩], ⟨0, 1⟩, 0, false, "d"⟩]
        [⟨0, 0⟩, ⟨1, 0⟩, ⟨2, 0⟩, ⟨0, 1⟩, ⟨1, 1⟩, ⟨2, 1⟩] = true ↔
      (normalizePiece
        ([⟨"a", [⟨0, 0⟩, ⟨1, 0⟩, ⟨2, 0⟩], ⟨0, 0⟩, 0, false, "c"⟩,
          ⟨"b", [⟨0, 0⟩, ⟨1, 0⟩, ⟨2, 0⟩], ⟨0, 1⟩, 0, false, "d"⟩].flatMap
          getAbsoluteCells)).1.toFinset =
      (normalizePiece [⟨0, 0⟩, ⟨1, 0⟩, ⟨2, 0⟩, ⟨0, 1⟩, ⟨1, 1⟩, ⟨2, 1⟩]).1.toFinset) :=
  ⟨by decide, checkSolution_exact_match_iff _ _ (by decide) (by decide) (by decide) (by decide)⟩
